import Mathlib

/-!
Verification of the OneSig Merkle proof generator (Go).

Byte strings are modelled as `List Nat` with each element < 256; 64-bit
lanes are `Nat` with explicit reduction `% 2^64`.  The Keccak-256 function
used throughout the source (`crypto.Keccak256` from go-ethereum, the
legacy Keccak padding `0x01`) is implemented concretely so that roots and
leaf commitments are computable.
-/

/-- A byte string: list of byte values (each < 256). -/
abbrev Bytes := List Nat

namespace Keccak

/-- 64-bit mask. -/
def mask64 : Nat := 2 ^ 64 - 1

/-- Rotate a 64-bit lane left by `n` (0 ≤ n < 64). -/
def rotl64 (x n : Nat) : Nat :=
  (((x <<< n) &&& mask64) ||| (x >>> (64 - n)))

/-- One step of the degree-8 LFSR `x^8 + x^6 + x^5 + x^4 + 1` generating
the `rc` bit sequence of FIPS 202. -/
def lfsrStep (r : Nat) : Nat :=
  ((r <<< 1) ^^^ ((r >>> 7) * 0x71)) &&& 0xFF

/-- LFSR state after `t` steps (initial state 1). -/
def lfsrAt : Nat → Nat
  | 0 => 1
  | t + 1 => lfsrStep (lfsrAt t)

/-- The bit `rc(t)` of FIPS 202. -/
def rcBit (t : Nat) : Nat := lfsrAt t &&& 1

/-- Round constants of Keccak-f[1600], generated from the `rc` sequence:
bit `2^j - 1` of `RC[i]` is `rc(7*i + j)`. -/
def RC : List Nat :=
  (List.range 24).map fun i =>
    (List.range 7).foldl (fun acc j => acc ||| (rcBit (7 * i + j) <<< (2 ^ j - 1))) 0

/-- The ρ/π walk of FIPS 202: starting from `(x, y) = (1, 0)`, step `t`
assigns rotation `(t+1)(t+2)/2 mod 64` to lane `x + 5*y` and moves to
`(y, (2*x + 3*y) mod 5)`.  `rhoPairs` collects the 24 `(lane, rotation)`
assignments. -/
def rhoPairs : List (Nat × Nat) :=
  (((List.range 24).foldl
    (fun st t =>
      let x := st.1
      let y := st.2.1
      (y, ((2 * x + 3 * y) % 5, (x + 5 * y, ((t + 1) * (t + 2) / 2) % 64) :: st.2.2)))
    (1, 0, [])).2).2

/-- Rotation offset of a lane (lane 0 rotates by 0). -/
def rhoOffsets : List Nat :=
  (List.range 25).map fun i => ((rhoPairs.lookup i).getD 0)

/-- θ step of Keccak-f. -/
def theta (st : List Nat) : List Nat :=
  let c := (List.range 5).map fun x =>
    st.getD x 0 ^^^ st.getD (x + 5) 0 ^^^ st.getD (x + 10) 0 ^^^
      st.getD (x + 15) 0 ^^^ st.getD (x + 20) 0
  let d := (List.range 5).map fun x =>
    c.getD ((x + 4) % 5) 0 ^^^ rotl64 (c.getD ((x + 1) % 5) 0) 1
  (List.range 25).map fun i => st.getD i 0 ^^^ d.getD (i % 5) 0

/-- ρ and π steps: destination lane `j = X + 5*Y` takes the rotated source
lane `x + 5*X` with `x = 3*(Y + 2*X) mod 5`. -/
def rhoPi (st : List Nat) : List Nat :=
  (List.range 25).map fun j =>
    let jX := j % 5
    let jY := j / 5
    let src := (3 * (jY + 2 * jX)) % 5 + 5 * jX
    rotl64 (st.getD src 0) (rhoOffsets.getD src 0)

/-- χ step. -/
def chi (st : List Nat) : List Nat :=
  (List.range 25).map fun i =>
    let x := i % 5
    let base := 5 * (i / 5)
    st.getD i 0 ^^^
      ((st.getD (base + (x + 1) % 5) 0 ^^^ mask64) &&& st.getD (base + (x + 2) % 5) 0)

/-- One round of Keccak-f[1600] (θ, ρ, π, χ, ι). -/
def keccakRound (st : List Nat) (rc : Nat) : List Nat :=
  let st' := chi (rhoPi (theta st))
  st'.set 0 (st'.getD 0 0 ^^^ rc)

/-- Keccak-f[1600]: 24 rounds. -/
def keccakF (st : List Nat) : List Nat :=
  RC.foldl keccakRound st

/-- Multi-rate padding with domain byte `0x01` (legacy Keccak, as used by
Ethereum's `crypto.Keccak256`), rate 136 bytes. -/
def pad (msg : Bytes) : Bytes :=
  let plen := 136 - msg.length % 136
  msg ++ (if plen = 1 then [0x81] else 0x01 :: (List.replicate (plen - 2) 0 ++ [0x80]))

/-- A lane from 8 bytes, little-endian. -/
def laneOfBytes (bs : Bytes) : Nat :=
  bs.foldr (fun b acc => acc * 256 + b) 0

/-- 8 little-endian bytes of a lane. -/
def bytesOfLane (n : Nat) : Bytes :=
  (List.range 8).map fun i => (n >>> (8 * i)) % 256

/-- Split a byte string into rate-sized (136-byte) blocks.  Structural
recursion on a fuel bounded by the length (each step consumes at least one
element), so that the kernel can evaluate it. -/
def blocksGo : Nat → Bytes → List Bytes
  | _, [] => []
  | 0, _ :: _ => []
  | fuel + 1, a :: l => ((a :: l).take 136) :: blocksGo fuel ((a :: l).drop 136)

/-- Split a byte string into 136-byte blocks. -/
def blocks136 (l : Bytes) : List Bytes :=
  blocksGo l.length l

/-- Absorb one 136-byte block into the state, then permute. -/
def absorbBlock (st : List Nat) (block : Bytes) : List Nat :=
  keccakF <| (List.range 25).map fun i =>
    if i < 17 then st.getD i 0 ^^^ laneOfBytes ((block.drop (8 * i)).take 8)
    else st.getD i 0

/-- Keccak-256 of a byte string (the `crypto.Keccak256` of go-ethereum). -/
def keccak256 (msg : Bytes) : Bytes :=
  let st := (blocks136 (pad msg)).foldl absorbBlock (List.replicate 25 0)
  (List.range 4).foldr (fun i acc => bytesOfLane (st.getD i 0) ++ acc) []

end Keccak

export Keccak (keccak256)

/-- `bytes.Compare` of Go: lexicographic byte comparison, shorter prefix
compares less. -/
def bytesCompare : Bytes → Bytes → Ordering
  | [], [] => .eq
  | [], _ :: _ => .lt
  | _ :: _, [] => .gt
  | a :: as, b :: bs =>
    if a < b then .lt else if b < a then .gt else bytesCompare as bs

namespace Merkle

/-- `TreeOptions` of the merkle package: options for tree construction. -/
structure TreeOptions where
  SortedPairs : Bool
  SortLeaves : Bool
deriving DecidableEq

/-- `hashPairWithOptions`: hash two nodes into a parent.  When
`SortedPairs` is set and `left` compares greater than `right` the pair is
swapped before concatenation; the result is `Keccak256(left ‖ right)`. -/
def hashPairWithOptions (left right : Bytes) (options : TreeOptions) : Bytes :=
  let p := if options.SortedPairs = true ∧ bytesCompare left right = .gt
           then (right, left) else (left, right)
  keccak256 (p.1 ++ p.2)

/-- `hashPair` (legacy free function of the options file): both options
false. -/
def hashPair (left right : Bytes) : Bytes :=
  hashPairWithOptions left right { SortedPairs := false, SortLeaves := false }

/-- One pass of the pair loop inside `buildTreeWithOptions` /
`generateProofHelperWithOptions`: full pairs are hashed, a trailing
unpaired node (`i+1 == len(leaves)`) is promoted unchanged. -/
def pairUp (options : TreeOptions) : List Bytes → List Bytes
  | [] => []
  | [x] => [x]
  | x :: y :: rest => hashPairWithOptions x y options :: pairUp options rest

/-- Length of one reduction level. -/
theorem pairUp_length (options : TreeOptions) :
    ∀ l : List Bytes, (pairUp options l).length = (l.length + 1) / 2
  | [] => by simp [pairUp]
  | [x] => by simp [pairUp]
  | x :: y :: rest => by
      simp [pairUp, pairUp_length options rest]
      omega

/-- `buildTreeWithOptions`: reduce levels until one node remains.  `none`
models the Go error "cannot build tree with no leaves". -/
def buildTreeWithOptions (leaves : List Bytes) (options : TreeOptions) : Option Bytes :=
  match leaves with
  | [] => none
  | [x] => some x
  | x :: y :: rest => buildTreeWithOptions (pairUp options (x :: y :: rest)) options
termination_by leaves.length
decreasing_by simp [pairUp_length]; omega

/-- `buildTree` (legacy function of the options file): both options
false. -/
def buildTree (leaves : List Bytes) : Option Bytes :=
  buildTreeWithOptions leaves { SortedPairs := false, SortLeaves := false }

/-- The insertion step of the leaf sort. -/
def insertLeaf (x : Bytes) : List Bytes → List Bytes
  | [] => [x]
  | y :: ys => if bytesCompare x y = .lt then x :: y :: ys else y :: insertLeaf x ys

/-- The result of Go's `sort.Slice(_, less)` with
`less i j := bytes.Compare(l[i], l[j]) < 0`: the unique nondecreasing
permutation of the list (ties are byte-identical values, so the algorithm
used by Go is irrelevant to the resulting value). -/
def sortLeavesList (l : List Bytes) : List Bytes :=
  l.foldr insertLeaf []

/-- The `MerkleTree` struct of the options file. -/
structure MerkleTree where
  Root : Bytes
  Leafs : List Bytes
  Options : TreeOptions
deriving DecidableEq

/-- `NewMerkleTreeWithOptions`: copy the leaves, sort the copy if
`SortLeaves` is set, build the tree.  `none` models the Go error
"cannot create Merkle tree with no leaves".  (The Go deep copy of the
input slice produces equal values; aliasing is modelled separately by the
heap embedding below.) -/
def NewMerkleTreeWithOptions (leaves : List Bytes) (options : TreeOptions) :
    Option MerkleTree :=
  match leaves with
  | [] => none
  | _ :: _ =>
    let leafCopies := if options.SortLeaves = true then sortLeavesList leaves else leaves
    match buildTreeWithOptions leafCopies options with
    | none => none
    | some root => some { Root := root, Leafs := leafCopies, Options := options }

/-- `NewMerkleTree`: default options. -/
def NewMerkleTree (leaves : List Bytes) : Option MerkleTree :=
  NewMerkleTreeWithOptions leaves { SortedPairs := false, SortLeaves := false }

/-- The loop of `VerifyProofWithOptions`: fold every proof element into
the running hash. -/
def foldProof (options : TreeOptions) (leaf : Bytes) (proof : List Bytes) : Bytes :=
  proof.foldl (fun currentHash proofElement =>
    hashPairWithOptions currentHash proofElement options) leaf

/-- `VerifyProofWithOptions`: fold the proof into the leaf and compare
with the root (`bytes.Equal`). -/
def VerifyProofWithOptions (root leaf : Bytes) (proof : List Bytes)
    (options : TreeOptions) : Bool :=
  decide (foldProof options leaf proof = root)

/-- `VerifyProof` of the options file: default options. -/
def VerifyProof (root leaf : Bytes) (proof : List Bytes) : Bool :=
  VerifyProofWithOptions root leaf proof { SortedPairs := false, SortLeaves := false }

/-- The proof contribution of one level of
`generateProofHelperWithOptions`: the partner of the target index in its
full pair, nothing when the target is the promoted trailing node. -/
def proofElems (options : TreeOptions) : List Bytes → Nat → List Bytes
  | _ :: y :: _, 0 => [y]
  | x :: _ :: _, 1 => [x]
  | _ :: _ :: rest, n + 2 => proofElems options rest n
  | _, _ => []

/-- `generateProofHelperWithOptions`: walk the level reduction, collecting
the pair partner of the target index at each level.  (Go recurses
unconditionally for `len(nodes) != 1`; it is never called on an empty
level, for which this model returns `[]`.) -/
def generateProofHelperWithOptions (nodes : List Bytes) (index : Nat)
    (options : TreeOptions) : List Bytes :=
  match nodes with
  | [] => []
  | [_] => []
  | x :: y :: rest =>
    proofElems options (x :: y :: rest) index ++
      generateProofHelperWithOptions (pairUp options (x :: y :: rest)) (index / 2) options
termination_by nodes.length
decreasing_by simp [pairUp_length]; omega

/-- The leaf lookup loop of `GenerateProof`: index of the first
byte-identical entry. -/
def findLeafIndex (leafs : List Bytes) (leaf : Bytes) : Option Nat :=
  match leafs with
  | [] => none
  | l :: rest =>
    if l = leaf then some 0 else (findLeafIndex rest leaf).map (· + 1)

/-- `(*MerkleTree).GenerateProof`: find the first index of the leaf (Go
error "leaf not found in tree" modelled as `none`), then build the
proof. -/
def GenerateProof (m : MerkleTree) (leaf : Bytes) : Option (List Bytes) :=
  match findLeafIndex m.Leafs leaf with
  | none => none
  | some leafIndex => some (generateProofHelperWithOptions m.Leafs leafIndex m.Options)

end Merkle

namespace MerkleLegacy

/-- `hashPair` of the legacy merkle file: always sorts the pair before
concatenation and hashing. -/
def hashPair (left right : Bytes) : Bytes :=
  let p := if bytesCompare left right = .gt then (right, left) else (left, right)
  keccak256 (p.1 ++ p.2)

/-- One pass of the legacy pair loop: a trailing unpaired node is
duplicated and hashed with itself. -/
def pairUp : List Bytes → List Bytes
  | [] => []
  | [x] => [hashPair x x]
  | x :: y :: rest => hashPair x y :: pairUp rest

/-- Length of one legacy reduction level. -/
theorem legacyPairUp_length :
    ∀ l : List Bytes, (pairUp l).length = (l.length + 1) / 2
  | [] => by simp [pairUp]
  | [x] => by simp [pairUp]
  | x :: y :: rest => by
      simp [pairUp, legacyPairUp_length rest]
      omega

/-- `buildTree` of the legacy merkle file. -/
def buildTree (leaves : List Bytes) : Option Bytes :=
  match leaves with
  | [] => none
  | [x] => some x
  | x :: y :: rest => buildTree (pairUp (x :: y :: rest))
termination_by leaves.length
decreasing_by simp [legacyPairUp_length]; omega

end MerkleLegacy

namespace Models

/-- `models.Call`: a single call of a leaf record.  `Value` models the
`*BigInt` field; `none` is a nil pointer (treated as zero by the
encoder). -/
structure Call where
  To : String
  Value : Option Int
  Data : String
deriving DecidableEq

/-- `models.Leaf`: one leaf record of the input. -/
structure Leaf where
  Nonce : String
  OneSigId : String
  TargetOneSigAddress : String
  Calls : List Call
deriving DecidableEq

end Models

namespace Utils

/-- Value of one hexadecimal digit character. -/
def hexDigitVal (c : Char) : Option Nat :=
  if 48 ≤ c.toNat ∧ c.toNat ≤ 57 then some (c.toNat - 48)
  else if 97 ≤ c.toNat ∧ c.toNat ≤ 102 then some (c.toNat - 87)
  else if 65 ≤ c.toNat ∧ c.toNat ≤ 70 then some (c.toNat - 55)
  else none

/-- Go's `hex.DecodeString` (strict): decodes pairs of hex digits, fails
on an odd count or any non-hex character. -/
def decodeHexPairs : List Char → Option Bytes
  | [] => some []
  | [_] => none
  | c1 :: c2 :: rest =>
    match hexDigitVal c1, hexDigitVal c2, decodeHexPairs rest with
    | some h, some l, some bs => some ((16 * h + l) :: bs)
    | _, _, _ => none

/-- `utils.HexToBytes`: strip a (lowercase-only) `0x` prefix, then strict
hex decoding; `.error` models the `hex` package error. -/
def HexToBytes (hexStr : String) : Except String Bytes :=
  let chars :=
    match hexStr.data with
    | '0' :: 'x' :: rest => rest
    | cs => cs
  match decodeHexPairs chars with
  | some bs => .ok bs
  | none => .error "encoding/hex: invalid input"

/-- Go's `hex.Decode` as used by `common.Hex2Bytes` (error ignored):
decodes complete leading pairs of hex digits, stopping at the first
invalid pair. -/
def decodeHexBestEffort : List Char → Bytes
  | c1 :: c2 :: rest =>
    (match hexDigitVal c1, hexDigitVal c2 with
     | some h, some l => (16 * h + l) :: decodeHexBestEffort rest
     | _, _ => [])
  | _ => []

/-- `common.FromHex`: strip `0x`/`0X`, left-pad an odd-length string with
one `0`, then best-effort decode. -/
def fromHexChars (s : List Char) : Bytes :=
  let s1 :=
    match s with
    | '0' :: c :: rest => if c = 'x' ∨ c = 'X' then rest else s
    | _ => s
  let s2 := if s1.length % 2 = 1 then '0' :: s1 else s1
  decodeHexBestEffort s2

/-- `common.LeftPadBytes`: pad on the left up to `n` bytes; longer inputs
are returned unchanged. -/
def leftPadBytes (n : Nat) (bs : Bytes) : Bytes :=
  if n ≤ bs.length then bs else List.replicate (n - bs.length) 0 ++ bs

/-- `common.BytesToAddress`: keep the rightmost 20 bytes, left-padded with
zeros to exactly 20 bytes. -/
def bytesToAddress (bs : Bytes) : Bytes :=
  leftPadBytes 20 (if 20 < bs.length then bs.drop (bs.length - 20) else bs)

/-- `common.HexToAddress`: best-effort hex decoding into a 20-byte
address; never fails. -/
def hexToAddress (s : String) : Bytes :=
  bytesToAddress (fromHexChars s.data)

/-- Digits of `cs` in base `base` (each digit < base), `none` when empty
or any character is out of range.  Models the digit scan of
`big.Int.SetString` / `strconv.ParseUint`. -/
def parseDigits (base : Nat) : List Char → Option Nat :=
  let rec go (acc : Nat) : List Char → Option Nat
    | [] => some acc
    | c :: rest =>
      match hexDigitVal c with
      | some d => if d < base then go (acc * base + d) rest else none
      | none => none
  fun cs => if cs = [] then none else go 0 cs

/-- `big.Int.SetString` in base 10 or 16: an optional sign followed by a
nonempty digit string. -/
def setStringInt (base : Nat) (cs : List Char) : Option Int :=
  match cs with
  | '+' :: rest => (parseDigits base rest).map Int.ofNat
  | '-' :: rest => (parseDigits base rest).map fun n => -(n : Int)
  | _ => (parseDigits base cs).map Int.ofNat

/-- The `strings.HasPrefix(s, "0x") || strings.HasPrefix(s, "0X")` test. -/
def has0xOr0X (cs : List Char) : Bool :=
  match cs with
  | '0' :: c :: _ => c == 'x' || c == 'X'
  | _ => false

/-- `int64(val)` of Go for `val : uint64`: two's-complement wraparound,
so values in `[2^63, 2^64)` become negative. -/
def int64OfUint64 (v : Nat) : Int :=
  if v < 2 ^ 63 then Int.ofNat v else Int.ofNat v - 2 ^ 64

/-- `utils.parseBigInt`: empty input fails; `0x`/`0X` input is parsed as
hex via `SetString(s[2:], 16)`; otherwise `strconv.ParseUint(s, 10, 64)`
— whose result Go passes through `big.NewInt(int64(val))`, wrapping
values in `[2^63, 2^64)` to negatives — then `SetString(s, 10)`. -/
def parseBigInt (s : String) : Except String Int :=
  let cs := s.data
  if cs = [] then .error "empty string"
  else if has0xOr0X cs then
    match setStringInt 16 (cs.drop 2) with
    | some v => .ok v
    | none => .error ("invalid hex number: " ++ s)
  else
    match parseDigits 10 cs with
    | some v =>
      if v < 2 ^ 64 then .ok (int64OfUint64 v)
      else
        match setStringInt 10 cs with
        | some w => .ok w
        | none => .error ("invalid number: " ++ s)
    | none =>
      match setStringInt 10 cs with
      | some w => .ok w
      | none => .error ("invalid number: " ++ s)

/-- Go's `big.Int.Uint64`: the low 64 bits of the absolute value; values
outside `uint64` range are silently truncated. -/
def bigIntUint64 (v : Int) : Nat :=
  v.natAbs % 2 ^ 64

/-- The 8-byte big-endian encoding loop of `encodeLeafV1`
(`bytes[7-i] = byte(v >> (i*8))`). -/
def be8 (n : Nat) : Bytes :=
  (List.range 8).map fun i => (n >>> (8 * (7 - i))) % 256

/-- A 32-byte big-endian word. -/
def be32 (n : Nat) : Bytes :=
  (List.range 32).map fun i => (n >>> (8 * (31 - i))) % 256

/-- `math.U256Bytes` of go-ethereum, as used when the ABI encoder packs a
`uint256`: the value modulo 2^256 (two's complement for negatives),
big-endian in 32 bytes. -/
def u256Bytes (v : Int) : Bytes :=
  be32 ((v % ((2 : Int) ^ 256)).toNat)

/-- Right-pad a byte string with zeros to a multiple of 32 bytes. -/
def rightPad32 (bs : Bytes) : Bytes :=
  bs ++ List.replicate ((32 - bs.length % 32) % 32) 0

/-- The `callsForAbi` element: fields of one call after conversion for the
ABI encoder. -/
structure AbiCall where
  To : Bytes
  Value : Int
  Data : Bytes
deriving DecidableEq

/-- Encoding of one `(address,uint256,bytes)` tuple under the standard ABI
head/tail scheme, as produced by go-ethereum's `Arguments.Pack`: the
address word, the value word, the offset (96) of the dynamic `bytes`
field, then its length and zero-padded content. -/
def abiEncodeCall (c : AbiCall) : Bytes :=
  leftPadBytes 32 c.To ++ u256Bytes c.Value ++ be32 96 ++
    be32 c.Data.length ++ rightPad32 c.Data

/-- The offset words of a dynamic tuple array: each element's byte
position relative to the start of the element section. -/
def abiOffsets (base : Nat) : List Bytes → Bytes
  | [] => []
  | t :: ts => be32 base ++ abiOffsets (base + t.length) ts

/-- `abi.Methods["encodeCalls"].Inputs.Pack` for `tuple[](address,uint256,bytes)`:
the array length word, the per-element offsets, then the concatenated
element encodings.  Total for the argument shapes produced by
`encodeLeafV1` (a well-typed slice of structs), so no error case. -/
def abiEncodeCalls (calls : List AbiCall) : Bytes :=
  let tails := calls.map abiEncodeCall
  be32 calls.length ++ abiOffsets (32 * calls.length) tails ++
    tails.foldr (· ++ ·) []

/-- The per-call conversion step of the `encodeLeafV1` loop: decode the
call data (the only fallible part), read the value (nil treated as 0),
best-effort-decode the target address. -/
def parseAbiCall (c : Models.Call) : Except String AbiCall :=
  match HexToBytes c.Data with
  | .error e => .error ("invalid call data: " ++ e)
  | .ok callData =>
    .ok { To := hexToAddress c.To, Value := c.Value.getD 0, Data := callData }

/-- The `callsForAbi` loop of `encodeLeafV1`: first failure wins. -/
def parseAbiCalls : List Models.Call → Except String (List AbiCall)
  | [] => .ok []
  | c :: rest =>
    match parseAbiCall c with
    | .error e => .error e
    | .ok ac =>
      match parseAbiCalls rest with
      | .error e => .error e
      | .ok acs => .ok (ac :: acs)

/-- `utils.LeafEncodingVersion`. -/
def LeafEncodingVersion : Nat := 1

/-- `utils.encodeLeafV1`: parse `oneSigId` and `nonce`, truncate each to
`uint64` (no range check in the source), build the packed layout
`version ‖ oneSigId(8,BE) ‖ address(32) ‖ nonce(8,BE) ‖ abi.encode(calls)`
and double-hash it. -/
def encodeLeafV1 (leaf : Models.Leaf) : Except String Bytes :=
  match parseBigInt leaf.OneSigId with
  | .error e => .error ("invalid oneSigId: " ++ e)
  | .ok oneSigID =>
    match parseBigInt leaf.Nonce with
    | .error e => .error ("invalid nonce: " ++ e)
    | .ok nonce =>
      let addrBytes := leftPadBytes 32 (hexToAddress leaf.TargetOneSigAddress)
      let oneSigIDBytes := be8 (bigIntUint64 oneSigID)
      let nonceBytes := be8 (bigIntUint64 nonce)
      match parseAbiCalls leaf.Calls with
      | .error e => .error e
      | .ok calls =>
        let callsEncoded := abiEncodeCalls calls
        let leafData :=
          [LeafEncodingVersion] ++ oneSigIDBytes ++ addrBytes ++ nonceBytes ++ callsEncoded
        .ok (keccak256 (keccak256 leafData))

/-- `utils.EncodeLeafV2`: dispatch on the version; only version 1 is
supported. -/
def EncodeLeafV2 (leaf : Models.Leaf) (version : Int) : Except String Bytes :=
  if version = 1 then encodeLeafV1 leaf
  else .error "unsupported leaf encoding version"

end Utils

namespace GoHeap

/-!
Heap embedding of `NewMerkleTreeWithOptions` and `GenerateProof`, used to
state the frame property (the caller's slice is never mutated).  The Go
heap relevant to these functions consists of backing arrays for `[]byte`
values (`bytesArr`, addressed by allocation index) and backing arrays for
`[][]byte` values (`ptrArr`, lists of byte-array indices).  Allocation
appends; `make([]byte, n)` yields capacity = length and
`crypto.Keccak256` returns a fresh 32-byte array, so every `append` in
these functions allocates a fresh array — modelled by `allocBytes`.  The
one in-place write is `sort.Slice(leafCopies, ...)`, which permutes the
freshly allocated outer array — modelled by `writePtr`.
-/

/-- The Go heap: byte arrays and slice-header arrays. -/
structure Heap where
  bytesArr : List Bytes
  ptrArr : List (List Nat)

/-- Read a byte array. -/
def readBytes (h : Heap) (id : Nat) : Bytes := h.bytesArr.getD id []

/-- Allocate a fresh byte array, returning its index. -/
def allocBytes (h : Heap) (v : Bytes) : Heap × Nat :=
  ({ h with bytesArr := h.bytesArr ++ [v] }, h.bytesArr.length)

/-- Read a `[][]byte` value. -/
def readPtr (h : Heap) (id : Nat) : List Nat := h.ptrArr.getD id []

/-- Allocate a fresh `[][]byte`, returning its index. -/
def allocPtr (h : Heap) (v : List Nat) : Heap × Nat :=
  ({ h with ptrArr := h.ptrArr ++ [v] }, h.ptrArr.length)

/-- Overwrite a `[][]byte` in place (`sort.Slice`). -/
def writePtr (h : Heap) (id : Nat) (v : List Nat) : Heap :=
  { h with ptrArr := h.ptrArr.set id v }

/-- The copy loop of `NewMerkleTreeWithOptions`: each leaf is copied into
a freshly `make`d array. -/
def copyLeaves (h : Heap) : List Nat → Heap × List Nat
  | [] => (h, [])
  | id :: rest =>
    let h1 := allocBytes h (readBytes h id)
    let h2 := copyLeaves h1.1 rest
    (h2.1, h1.2 :: h2.2)

/-- `hashPairWithOptions` on the heap: reads both nodes, allocates the
fresh hash array (`append` and `Keccak256` both allocate here, see
above). -/
def hashPairH (h : Heap) (l r : Nat) (options : Merkle.TreeOptions) : Heap × Nat :=
  allocBytes h (Merkle.hashPairWithOptions (readBytes h l) (readBytes h r) options)

/-- The pair loop on the heap: trailing unpaired node promoted (its index
reused, nothing allocated). -/
def pairUpH (options : Merkle.TreeOptions) (h : Heap) : List Nat → Heap × List Nat
  | [] => (h, [])
  | [x] => (h, [x])
  | x :: y :: rest =>
    let h1 := hashPairH h x y options
    let h2 := pairUpH options h1.1 rest
    (h2.1, h1.2 :: h2.2)

/-- The heap pair loop yields the same level length as the pure one. -/
theorem pairUpH_length (options : Merkle.TreeOptions) :
    ∀ (h : Heap) (l : List Nat), (pairUpH options h l).2.length = (l.length + 1) / 2
  | _, [] => by simp [pairUpH]
  | _, [x] => by simp [pairUpH]
  | h, x :: y :: rest => by
      simp [pairUpH, pairUpH_length options _ rest]
      omega

/-- `buildTreeWithOptions` on the heap. -/
def buildTreeH (h : Heap) (ids : List Nat) (options : Merkle.TreeOptions) :
    Heap × Option Nat :=
  match ids with
  | [] => (h, none)
  | [x] => (h, some x)
  | x :: y :: rest =>
    let h1 := pairUpH options h (x :: y :: rest)
    buildTreeH h1.1 h1.2 options
termination_by ids.length
decreasing_by simp [pairUpH_length]; omega

/-- The insertion step of `sort.Slice` on leaf indices, keyed by byte
content. -/
def insertIdByBytes (h : Heap) (x : Nat) : List Nat → List Nat
  | [] => [x]
  | y :: ys =>
    if bytesCompare (readBytes h x) (readBytes h y) = .lt then x :: y :: ys
    else y :: insertIdByBytes h x ys

/-- `sort.Slice(leafCopies, less)` on indices: the nondecreasing (by byte
content) permutation. -/
def sortIdsByContent (h : Heap) (ids : List Nat) : List Nat :=
  ids.foldr (insertIdByBytes h) []

/-- The tree object on the heap: root array index, index of the
`Leafs` slice header, options. -/
structure TreeH where
  rootId : Nat
  leafsPtr : Nat
  Options : Merkle.TreeOptions

/-- `NewMerkleTreeWithOptions` on the heap: read the caller's slice, copy
every leaf into fresh arrays, allocate a fresh outer slice, sort that
fresh slice in place when `SortLeaves` is set, then build the tree. -/
def NewMerkleTreeWithOptionsH (h : Heap) (leavesPtr : Nat)
    (options : Merkle.TreeOptions) : Heap × Option TreeH :=
  match readPtr h leavesPtr with
  | [] => (h, none)
  | _ :: _ =>
    let c := copyLeaves h (readPtr h leavesPtr)
    let a := allocPtr c.1 c.2
    let h3 := if options.SortLeaves = true
              then writePtr a.1 a.2 (sortIdsByContent a.1 c.2)
              else a.1
    let b := buildTreeH h3 (readPtr h3 a.2) options
    match b.2 with
    | none => (b.1, none)
    | some r => (b.1, some { rootId := r, leafsPtr := a.2, Options := options })

/-- The per-level proof contribution on indices (values are read only by
the caller). -/
def proofElemsH : List Nat → Nat → List Nat
  | _ :: y :: _, 0 => [y]
  | x :: _ :: _, 1 => [x]
  | _ :: _ :: rest, n + 2 => proofElemsH rest n
  | _, _ => []

/-- `generateProofHelperWithOptions` on the heap: each level allocates its
next level's hash arrays, the proof collects existing indices. -/
def generateProofHelperH (h : Heap) (nodes : List Nat) (index : Nat)
    (options : Merkle.TreeOptions) : Heap × List Nat :=
  match nodes with
  | [] => (h, [])
  | [_] => (h, [])
  | x :: y :: rest =>
    let h1 := pairUpH options h (x :: y :: rest)
    let h2 := generateProofHelperH h1.1 h1.2 (index / 2) options
    (h2.1, proofElemsH (x :: y :: rest) index ++ h2.2)
termination_by nodes.length
decreasing_by simp [pairUpH_length]; omega

/-- The leaf lookup of `GenerateProof` on the heap. -/
def findLeafIndexH (h : Heap) (ids : List Nat) (leaf : Bytes) : Option Nat :=
  match ids with
  | [] => none
  | id :: rest =>
    if readBytes h id = leaf then some 0
    else (findLeafIndexH h rest leaf).map (· + 1)

/-- `GenerateProof` on the heap. -/
def GenerateProofH (h : Heap) (t : TreeH) (leaf : Bytes) :
    Heap × Option (List Nat) :=
  match findLeafIndexH h (readPtr h t.leafsPtr) leaf with
  | none => (h, none)
  | some leafIndex =>
    let g := generateProofHelperH h (readPtr h t.leafsPtr) leafIndex t.Options
    (g.1, some g.2)

/-- `h'` preserves every array already present in `h`: contents of
pre-existing byte arrays and slice headers — in particular a caller's
`leaves` argument and all its entries — are unchanged. -/
def Preserves (h h' : Heap) : Prop :=
  h.bytesArr.length ≤ h'.bytesArr.length ∧
  h.ptrArr.length ≤ h'.ptrArr.length ∧
  (∀ i, i < h.bytesArr.length → h'.bytesArr.getD i [] = h.bytesArr.getD i []) ∧
  (∀ i, i < h.ptrArr.length → h'.ptrArr.getD i [] = h.ptrArr.getD i [])

end GoHeap

/-! ## Supporting lemmas -/

/-- Swapping the arguments of `bytesCompare` swaps the ordering. -/
theorem bytesCompare_swap : ∀ a b : Bytes, bytesCompare b a = (bytesCompare a b).swap
  | [], [] => rfl
  | [], _ :: _ => rfl
  | _ :: _, [] => rfl
  | a :: as, b :: bs => by
    by_cases h1 : a < b
    · simp [bytesCompare, h1, Nat.lt_asymm h1, Ordering.swap]
    · by_cases h2 : b < a
      · simp [bytesCompare, h1, h2, Ordering.swap]
      · simp [bytesCompare, h1, h2, bytesCompare_swap as bs]

/-- `bytesCompare` returns `eq` exactly on equal byte strings. -/
theorem bytesCompare_eq_iff : ∀ a b : Bytes, bytesCompare a b = .eq ↔ a = b
  | [], [] => by simp [bytesCompare]
  | [], _ :: _ => by simp [bytesCompare]
  | _ :: _, [] => by simp [bytesCompare]
  | a :: as, b :: bs => by
    by_cases h1 : a < b
    · simp only [bytesCompare, if_pos h1]
      constructor
      · intro hcon; cases hcon
      · rintro ⟨⟩; omega
    · by_cases h2 : b < a
      · simp only [bytesCompare, if_neg h1, if_pos h2]
        constructor
        · intro hcon; cases hcon
        · rintro ⟨⟩; omega
      · have hab : a = b := by omega
        subst hab
        simp [bytesCompare, bytesCompare_eq_iff as bs]

/-- With `SortedPairs` enabled, `hashPairWithOptions` is symmetric. -/
theorem hashPairWithOptions_comm (a b : Bytes) (options : Merkle.TreeOptions)
    (hsp : options.SortedPairs = true) :
    Merkle.hashPairWithOptions a b options = Merkle.hashPairWithOptions b a options := by
  unfold Merkle.hashPairWithOptions
  cases hc : bytesCompare a b with
  | lt =>
    have hba : bytesCompare b a = .gt := by rw [bytesCompare_swap, hc]; rfl
    simp [hsp, hc, hba]
  | eq =>
    have hab : a = b := (bytesCompare_eq_iff a b).mp hc
    subst hab
    simp [hc]
  | gt =>
    have hba : bytesCompare b a = .lt := by rw [bytesCompare_swap, hc]; rfl
    simp [hsp, hc, hba]

/-- The verification fold splits over list append. -/
theorem foldProof_append (options : Merkle.TreeOptions) (leaf : Bytes) (p q : List Bytes) :
    Merkle.foldProof options leaf (p ++ q) =
      Merkle.foldProof options (Merkle.foldProof options leaf p) q := by
  simp [Merkle.foldProof, List.foldl_append]

/-- One level of verification: folding the level's proof contribution into
the target node yields the target's parent in the next level (sorted
pairs required: the fold always hashes the running value on the left). -/
theorem foldProof_proofElems (options : Merkle.TreeOptions) (hsp : options.SortedPairs = true) :
    ∀ (l : List Bytes) (idx : Nat), idx < l.length →
      Merkle.foldProof options (l.getD idx []) (Merkle.proofElems options l idx) =
        (Merkle.pairUp options l).getD (idx / 2) []
  | [], idx => by intro h; simp at h
  | [x], idx => by
    intro h
    have hz : idx = 0 := Nat.lt_one_iff.mp h
    subst hz
    simp [Merkle.foldProof, Merkle.proofElems, Merkle.pairUp]
  | x :: y :: rest, 0 => by
    intro _
    simp [Merkle.foldProof, Merkle.proofElems, Merkle.pairUp]
  | x :: y :: rest, 1 => by
    intro _
    simp [Merkle.foldProof, Merkle.proofElems, Merkle.pairUp,
      hashPairWithOptions_comm y x options hsp]
  | x :: y :: rest, n + 2 => by
    intro h
    have hlt : n < rest.length := by simp at h; omega
    have ih := foldProof_proofElems options hsp rest n hlt
    have hdiv : (n + 2) / 2 = n / 2 + 1 := by omega
    simp only [Merkle.proofElems, Merkle.pairUp, List.getD_cons_succ, hdiv]
    exact ih

/-- The leaf lookup fails exactly when the leaf is absent. -/
theorem findLeafIndex_eq_none_iff :
    ∀ (l : List Bytes) (leaf : Bytes), Merkle.findLeafIndex l leaf = none ↔ leaf ∉ l
  | [], leaf => by simp [Merkle.findLeafIndex]
  | x :: rest, leaf => by
    by_cases hx : x = leaf
    · subst hx
      simp [Merkle.findLeafIndex]
    · simp [Merkle.findLeafIndex, hx, Option.map_eq_none',
        findLeafIndex_eq_none_iff rest leaf, Ne.symm hx]

/-- A successful leaf lookup returns the first byte-identical position. -/
theorem findLeafIndex_eq_some :
    ∀ (l : List Bytes) (leaf : Bytes) (i : Nat), Merkle.findLeafIndex l leaf = some i →
      i < l.length ∧ l.getD i [] = leaf ∧ ∀ j, j < i → l.getD j [] ≠ leaf
  | [], leaf, i => by simp [Merkle.findLeafIndex]
  | x :: rest, leaf, i => by
    intro h
    by_cases hx : x = leaf
    · simp only [Merkle.findLeafIndex, if_pos hx] at h
      cases h
      exact ⟨Nat.succ_pos _, hx, by omega⟩
    · simp only [Merkle.findLeafIndex, if_neg hx, Option.map_eq_some'] at h
      obtain ⟨i', hi', rfl⟩ := h
      obtain ⟨h1, h2, h3⟩ := findLeafIndex_eq_some rest leaf i' hi'
      refine ⟨by simpa using h1, by simpa using h2, ?_⟩
      intro j hj
      cases j with
      | zero => simpa using hx
      | succ j' => simpa using h3 j' (by omega)

/-- Inserting into the sorted list is a permutation of consing. -/
theorem insertLeaf_perm (x : Bytes) :
    ∀ l : List Bytes, (Merkle.insertLeaf x l).Perm (x :: l)
  | [] => List.Perm.refl _
  | y :: ys => by
    unfold Merkle.insertLeaf
    by_cases h : bytesCompare x y = .lt
    · simp [h]
    · simp only [if_neg h]
      exact ((insertLeaf_perm x ys).cons y).trans (List.Perm.swap x y ys)

/-- The leaf sort permutes the input list. -/
theorem sortLeavesList_perm (l : List Bytes) : (Merkle.sortLeavesList l).Perm l := by
  induction l with
  | nil => exact List.Perm.refl _
  | cons x xs ih =>
    have : Merkle.sortLeavesList (x :: xs) = Merkle.insertLeaf x (Merkle.sortLeavesList xs) := rfl
    rw [this]
    exact (insertLeaf_perm x _).trans (ih.cons x)

/-- Inversion of a successful `NewMerkleTreeWithOptions`: the stored
options, the stored leaf sequence (the input, sorted if requested), and
the fact that the stored root was built from the stored sequence. -/
theorem newMerkleTree_inv (leaves : List Bytes) (options : Merkle.TreeOptions)
    (t : Merkle.MerkleTree)
    (h : Merkle.NewMerkleTreeWithOptions leaves options = some t) :
    t.Options = options ∧
    t.Leafs = (if options.SortLeaves = true then Merkle.sortLeavesList leaves else leaves) ∧
    Merkle.buildTreeWithOptions t.Leafs options = some t.Root := by
  match leaves with
  | [] => simp [Merkle.NewMerkleTreeWithOptions] at h
  | x :: rest =>
    simp only [Merkle.NewMerkleTreeWithOptions] at h
    set lc := if options.SortLeaves = true then Merkle.sortLeavesList (x :: rest) else x :: rest with hlc
    cases hb : Merkle.buildTreeWithOptions lc options with
    | none => rw [hb] at h; cases h
    | some root =>
      rw [hb] at h
      cases h
      exact ⟨rfl, rfl, hb⟩

/-- The stored leaf sequence is a permutation of the input. -/
theorem newMerkleTree_perm (leaves : List Bytes) (options : Merkle.TreeOptions)
    (t : Merkle.MerkleTree)
    (h : Merkle.NewMerkleTreeWithOptions leaves options = some t) :
    t.Leafs.Perm leaves := by
  obtain ⟨-, hleafs, -⟩ := newMerkleTree_inv leaves options t h
  rw [hleafs]
  by_cases hs : options.SortLeaves = true
  · simp only [if_pos hs]
    exact sortLeavesList_perm leaves
  · simp only [if_neg hs]
    exact List.Perm.refl _

/-- Core of proof validity under sorted pairs: folding the generated proof
into the target node recreates the root, at every level, for every target
index.  Induction over a bound on the level size. -/
theorem foldProof_generateHelper (options : Merkle.TreeOptions)
    (hsp : options.SortedPairs = true) :
    ∀ (n : Nat) (nodes : List Bytes) (idx : Nat) (r : Bytes),
      nodes.length ≤ n → idx < nodes.length →
      Merkle.buildTreeWithOptions nodes options = some r →
      Merkle.foldProof options (nodes.getD idx [])
        (Merkle.generateProofHelperWithOptions nodes idx options) = r := by
  intro n
  induction n with
  | zero =>
    intro nodes idx r hle hidx _
    omega
  | succ n ih =>
    intro nodes idx r hle hidx hb
    match nodes with
    | [] => simp at hidx
    | [x] =>
      have hz : idx = 0 := Nat.lt_one_iff.mp hidx
      subst hz
      simp only [Merkle.buildTreeWithOptions] at hb
      cases hb
      simp [Merkle.generateProofHelperWithOptions, Merkle.foldProof]
    | x :: y :: rest =>
      rw [Merkle.buildTreeWithOptions] at hb
      rw [Merkle.generateProofHelperWithOptions]
      rw [foldProof_append]
      rw [foldProof_proofElems options hsp _ idx hidx]
      have hlen : (Merkle.pairUp options (x :: y :: rest)).length = (rest.length + 3) / 2 := by
        rw [Merkle.pairUp_length]
        simp
      have hlef : (Merkle.pairUp options (x :: y :: rest)).length ≤ n := by
        rw [hlen]
        simp at hle
        omega
      have hidx2 : idx / 2 < (Merkle.pairUp options (x :: y :: rest)).length := by
        rw [hlen]
        simp at hidx
        omega
      exact ih (Merkle.pairUp options (x :: y :: rest)) (idx / 2) r hlef hidx2 hb

/-! ## Claim C1 -/

/-- C1 (amended): proof validity holds when `SortedPairs` is enabled.  For
every non-empty leaf list, every `TreeOptions` with `SortedPairs = true`,
and every leaf `L` of the list, proof generation succeeds and
`VerifyProofWithOptions(root, L, proof, options) = true`.  (As stated for
all options the claim fails: with `SortedPairs = false` verification
hashes the running value on the left, so right-children fail — see the
counterexample.) -/
theorem c1_proof_validity_sortedPairs (leaves : List Bytes)
    (options : Merkle.TreeOptions) (L : Bytes) (t : Merkle.MerkleTree)
    (hsp : options.SortedPairs = true)
    (ht : Merkle.NewMerkleTreeWithOptions leaves options = some t)
    (hL : L ∈ leaves) :
    ∃ p, Merkle.GenerateProof t L = some p ∧
      Merkle.VerifyProofWithOptions t.Root L p options = true := by
  obtain ⟨hopt, -, hroot⟩ := newMerkleTree_inv leaves options t ht
  have hmem : L ∈ t.Leafs := ((newMerkleTree_perm leaves options t ht).mem_iff).mpr hL
  cases hfi : Merkle.findLeafIndex t.Leafs L with
  | none =>
    exact absurd ((findLeafIndex_eq_none_iff t.Leafs L).mp hfi) (by simpa using hmem)
  | some i =>
    refine ⟨Merkle.generateProofHelperWithOptions t.Leafs i t.Options, ?_, ?_⟩
    · simp [Merkle.GenerateProof, hfi]
    · obtain ⟨hi, hgd, -⟩ := findLeafIndex_eq_some t.Leafs L i hfi
      have hfold := foldProof_generateHelper options hsp t.Leafs.length t.Leafs i t.Root
        le_rfl hi hroot
      rw [hgd] at hfold
      rw [hopt]
      simp [Merkle.VerifyProofWithOptions, hfold]

/-- Default options of the counterexample. -/
def cexOptions : Merkle.TreeOptions := { SortedPairs := false, SortLeaves := false }

/-- First counterexample leaf. -/
def cexA : Bytes := List.replicate 32 0x11

/-- Second counterexample leaf. -/
def cexB : Bytes := List.replicate 32 0x22

/-- The tree built from `[cexA, cexB]` with default options. -/
def cexTree : Merkle.MerkleTree :=
  { Root := Merkle.hashPairWithOptions cexA cexB cexOptions,
    Leafs := [cexA, cexB],
    Options := cexOptions }

set_option maxRecDepth 40000 in
/-- C1 counterexample: with `SortedPairs = false` (the default options,
one admissible `TreeOptions` value of the claim), the two-leaf tree
`[cexA, cexB]` generates the proof `[cexA]` for its second leaf, and
verification of that proof returns `false` — the claim fails for the
right child because verification hashes the running value on the left
while the root hashed it on the right. -/
theorem c1_counterexample :
    Merkle.NewMerkleTreeWithOptions [cexA, cexB] cexOptions = some cexTree ∧
    Merkle.GenerateProof cexTree cexB = some [cexA] ∧
    Merkle.VerifyProofWithOptions cexTree.Root cexB [cexA] cexOptions = false := by
  have hne : cexA ≠ cexB := by decide
  refine ⟨?_, ?_, ?_⟩
  · simp [Merkle.NewMerkleTreeWithOptions, Merkle.buildTreeWithOptions, Merkle.pairUp,
      cexOptions, cexTree]
  · simp [Merkle.GenerateProof, Merkle.findLeafIndex, cexTree, hne,
      Merkle.generateProofHelperWithOptions, Merkle.proofElems, Merkle.pairUp]
  · decide

/-- Options of the C1 witness: sorted pairs. -/
def c1wOptions : Merkle.TreeOptions := { SortedPairs := true, SortLeaves := false }

/-- C1 witness leaves (deliberately unsorted so a swap occurs). -/
def c1wA : Bytes := List.replicate 32 0x33

/-- C1 witness second leaf. -/
def c1wB : Bytes := List.replicate 32 0x01

/-- C1 witness third leaf. -/
def c1wC : Bytes := List.replicate 32 0x02

/-- The tree built from `[c1wA, c1wB, c1wC]` with sorted pairs. -/
def c1wTree : Merkle.MerkleTree :=
  { Root := Merkle.hashPairWithOptions
      (Merkle.hashPairWithOptions c1wA c1wB c1wOptions) c1wC c1wOptions,
    Leafs := [c1wA, c1wB, c1wC],
    Options := c1wOptions }

/-- C1 witness: the amended claim at the concrete three-leaf tree, for the
right child of the first pair. -/
theorem c1_witness :
    ∃ p, Merkle.GenerateProof c1wTree c1wB = some p ∧
      Merkle.VerifyProofWithOptions c1wTree.Root c1wB p c1wOptions = true :=
  c1_proof_validity_sortedPairs [c1wA, c1wB, c1wC] c1wOptions c1wB c1wTree rfl
    (by simp [Merkle.NewMerkleTreeWithOptions, Merkle.buildTreeWithOptions, Merkle.pairUp,
      c1wOptions, c1wTree])
    (by simp)

/-! ## Claim C10 -/

/-- C10 (confirmed): the result of `VerifyProofWithOptions` does not
depend on `SortLeaves` — for any fixed `SortedPairs` value, the two
`SortLeaves` values give the same boolean on every root, leaf and
proof. -/
theorem c10_verify_ignores_sortLeaves (root leaf : Bytes) (proof : List Bytes)
    (sp s1 s2 : Bool) :
    Merkle.VerifyProofWithOptions root leaf proof { SortedPairs := sp, SortLeaves := s1 } =
      Merkle.VerifyProofWithOptions root leaf proof { SortedPairs := sp, SortLeaves := s2 } := by
  have hfold : ∀ (p : List Bytes) (l : Bytes),
      Merkle.foldProof { SortedPairs := sp, SortLeaves := s1 } l p =
        Merkle.foldProof { SortedPairs := sp, SortLeaves := s2 } l p := by
    intro p
    induction p with
    | nil => intro l; rfl
    | cons e rest ih =>
      intro l
      have h1 : Merkle.hashPairWithOptions l e { SortedPairs := sp, SortLeaves := s1 } =
          Merkle.hashPairWithOptions l e { SortedPairs := sp, SortLeaves := s2 } := rfl
      simp only [Merkle.foldProof, List.foldl_cons] at ih ⊢
      rw [h1]
      exact ih _
  simp [Merkle.VerifyProofWithOptions, hfold]

/-! ## Claim C8 -/

/-- C8 (confirmed): for every byte string `L` and every `TreeOptions`
value, building a tree from `[L]` succeeds, stores `[L]`, and its root is
`L` itself — `buildTreeWithOptions` returns the single leaf before any
pair is hashed. -/
theorem c8_single_leaf_root (L : Bytes) (options : Merkle.TreeOptions) :
    Merkle.NewMerkleTreeWithOptions [L] options =
      some { Root := L, Leafs := [L], Options := options } := by
  cases hsl : options.SortLeaves <;>
    simp [Merkle.NewMerkleTreeWithOptions, Merkle.buildTreeWithOptions, hsl,
      Merkle.sortLeavesList, Merkle.insertLeaf]

/-! ## Claim C7 -/

/-- C7 (confirmed): `GenerateProof` fails (the Go `LeafNotFound` error,
modelled `none`) exactly when the leaf is not byte-identical to any entry
of the stored leaf sequence; on success the proof is computed for the
first (lowest-index) exact match. -/
theorem c7_generateProof_first_match (m : Merkle.MerkleTree) (leaf : Bytes) :
    (Merkle.GenerateProof m leaf = none ↔ leaf ∉ m.Leafs) ∧
    (∀ p, Merkle.GenerateProof m leaf = some p →
      ∃ i, i < m.Leafs.length ∧ m.Leafs.getD i [] = leaf ∧
        (∀ j, j < i → m.Leafs.getD j [] ≠ leaf) ∧
        p = Merkle.generateProofHelperWithOptions m.Leafs i m.Options) := by
  constructor
  · cases hfi : Merkle.findLeafIndex m.Leafs leaf with
    | none =>
      simp [Merkle.GenerateProof, hfi, (findLeafIndex_eq_none_iff _ _).mp hfi]
    | some i =>
      have hmem : leaf ∈ m.Leafs := by
        by_contra hnm
        rw [(findLeafIndex_eq_none_iff m.Leafs leaf).mpr hnm] at hfi
        cases hfi
      simp [Merkle.GenerateProof, hfi, hmem]
  · intro p hp
    cases hfi : Merkle.findLeafIndex m.Leafs leaf with
    | none =>
      rw [Merkle.GenerateProof, hfi] at hp
      cases hp
    | some i =>
      rw [Merkle.GenerateProof, hfi] at hp
      cases hp
      obtain ⟨h1, h2, h3⟩ := findLeafIndex_eq_some m.Leafs leaf i hfi
      exact ⟨i, h1, h2, h3, rfl⟩

/-- A concrete tree with a duplicated leaf for the C7 witness (the root is
irrelevant to `GenerateProof`). -/
def c7m : Merkle.MerkleTree :=
  { Root := [], Leafs := [[1], [2], [1]], Options := { SortedPairs := false, SortLeaves := false } }

/-- C7 witness: on the concrete tree, an absent leaf yields the error and
the duplicated leaf `[1]` is proved at its first position (index 0), even
though it also occurs at index 2. -/
theorem c7_witness :
    Merkle.GenerateProof c7m [9] = none ∧
    (∃ i, i < c7m.Leafs.length ∧ c7m.Leafs.getD i [] = [1] ∧
      (∀ j, j < i → c7m.Leafs.getD j [] ≠ [1]) ∧
      ([[2], [1]] : List Bytes) =
        Merkle.generateProofHelperWithOptions c7m.Leafs i c7m.Options) := by
  constructor
  · exact (c7_generateProof_first_match c7m [9]).1.mpr (by decide)
  · refine (c7_generateProof_first_match c7m [1]).2 [[2], [1]] ?_
    simp [Merkle.GenerateProof, c7m, Merkle.findLeafIndex,
      Merkle.generateProofHelperWithOptions, Merkle.proofElems, Merkle.pairUp]

/-! ## Claim C6 -/

/-- C6 (confirmed): for a three-leaf tree `[a, b, c]` (distinct leaves,
leaves kept in input order) under the promotion policy, the proof for the
third (unpaired) leaf is exactly `[HashPair(a, b)]`, and the proofs for
the first two are the pair partner followed by the promoted third leaf:
`[b, c]` and `[a, c]`. -/
theorem c6_three_leaf_proofs (a b c : Bytes) (sp : Bool) (t : Merkle.MerkleTree)
    (hba : b ≠ a) (hca : c ≠ a) (hcb : c ≠ b)
    (ht : Merkle.NewMerkleTreeWithOptions [a, b, c]
      { SortedPairs := sp, SortLeaves := false } = some t) :
    Merkle.GenerateProof t c =
      some [Merkle.hashPairWithOptions a b { SortedPairs := sp, SortLeaves := false }] ∧
    Merkle.GenerateProof t a = some [b, c] ∧
    Merkle.GenerateProof t b = some [a, c] := by
  obtain ⟨hopt, hleafs, -⟩ := newMerkleTree_inv _ _ _ ht
  simp only [show (({ SortedPairs := sp, SortLeaves := false } : Merkle.TreeOptions).SortLeaves
    = true) = False from by simp, if_false] at hleafs
  refine ⟨?_, ?_, ?_⟩ <;>
    simp [Merkle.GenerateProof, hleafs, hopt, Merkle.findLeafIndex,
      Ne.symm hba, Ne.symm hca, Ne.symm hcb,
      Merkle.generateProofHelperWithOptions, Merkle.proofElems, Merkle.pairUp]

/-- The concrete three-leaf tree of the C6 witness. -/
def c6t : Merkle.MerkleTree :=
  { Root := Merkle.hashPairWithOptions
      (Merkle.hashPairWithOptions [1] [2] { SortedPairs := false, SortLeaves := false }) [3]
      { SortedPairs := false, SortLeaves := false },
    Leafs := [[1], [2], [3]],
    Options := { SortedPairs := false, SortLeaves := false } }

/-- C6 witness: the three-leaf proof shapes at a concrete tree. -/
theorem c6_witness :
    Merkle.GenerateProof c6t [3] =
      some [Merkle.hashPairWithOptions [1] [2] { SortedPairs := false, SortLeaves := false }] ∧
    Merkle.GenerateProof c6t [1] = some [[2], [3]] ∧
    Merkle.GenerateProof c6t [2] = some [[1], [3]] :=
  c6_three_leaf_proofs [1] [2] [3] false c6t (by decide) (by decide) (by decide)
    (by simp [Merkle.NewMerkleTreeWithOptions, Merkle.buildTreeWithOptions, Merkle.pairUp, c6t])

/-! ## Claim C4 -/

/-- First C4 leaf. -/
def c4A : Bytes := List.replicate 32 1

/-- Second C4 leaf. -/
def c4B : Bytes := List.replicate 32 2

/-- Third C4 leaf. -/
def c4C : Bytes := List.replicate 32 3

set_option maxRecDepth 40000 in
/-- C4 (confirmed): the two generations of `buildTree` are not
equivalent.  On the odd-sized (three-leaf) list `[c4A, c4B, c4C]` the
legacy construction (duplicate the trailing node and hash it against
itself, always sort pairs) and the current construction with default
options (promote the trailing node unchanged, no sorting) produce
different roots. -/
theorem c4_legacy_vs_promotion :
    MerkleLegacy.buildTree [c4A, c4B, c4C] ≠ Merkle.buildTree [c4A, c4B, c4C] := by
  simp only [MerkleLegacy.buildTree, MerkleLegacy.pairUp, Merkle.buildTree,
    Merkle.buildTreeWithOptions, Merkle.pairUp, Ne, Option.some.injEq]
  decide

/-! ## Claim C2 -/

/-- A leaf record whose `oneSigId` is 2^64 — one past the `uint64`
range. -/
def c2LeafBig : Models.Leaf :=
  { Nonce := "0", OneSigId := "18446744073709551616",
    TargetOneSigAddress := "0x00000000000000000000000000000000000000aa", Calls := [] }

/-- The same record with `oneSigId = 0` (the low 64 bits of 2^64). -/
def c2LeafSmall : Models.Leaf :=
  { Nonce := "0", OneSigId := "0",
    TargetOneSigAddress := "0x00000000000000000000000000000000000000aa", Calls := [] }

/-- C2 (code bug): `encodeLeafV1` applies `big.Int.Uint64()` with no range
check, so a 65-bit `oneSigId` parses successfully (to 2^64), is silently
truncated to its low 64 bits, and encoding succeeds with the same
commitment as `oneSigId = 0` — instead of the out-of-range failure the
specification requires. -/
theorem c2_truncation_bug :
    Utils.parseBigInt c2LeafBig.OneSigId = .ok (Int.ofNat (2 ^ 64)) ∧
    (Utils.EncodeLeafV2 c2LeafBig 1).isOk = true ∧
    Utils.EncodeLeafV2 c2LeafBig 1 = Utils.EncodeLeafV2 c2LeafSmall 1 :=
  ⟨rfl, rfl, rfl⟩

/-! ## Claim C3 -/

/-- `(Except.ok a).isOk` computes to `true`. -/
theorem exceptIsOk_ok {ε α : Type} (a : α) : (Except.ok a : Except ε α).isOk = true := rfl

/-- `(Except.error e).isOk` computes to `false`. -/
theorem exceptIsOk_error {ε α : Type} (e : ε) : (Except.error e : Except ε α).isOk = false := rfl

/-- A record whose only call has a malformed `to` (not hex) and a negative
`value`, but well-formed `data`. -/
def c5Leaf : Models.Leaf :=
  { Nonce := "0", OneSigId := "1",
    TargetOneSigAddress := "0x00000000000000000000000000000000000000aa",
    Calls := [{ To := "0xZZ-not-hex", Value := some (-1), Data := "0x" }] }

/-- C5 counterexample: the claim requires an error for a malformed `to`
or a negative `value`; the code succeeds on a call with both (the `to` is
best-effort decoded by `common.HexToAddress`, which ignores decoding
errors, and the value is packed modulo 2^256 with no range check). -/
theorem c5_counterexample : (Utils.encodeLeafV1 c5Leaf).isOk = true := rfl

/-- The per-call conversion fails exactly when the call data is not
well-formed hex. -/
theorem parseAbiCall_isOk (c : Models.Call) :
    (Utils.parseAbiCall c).isOk = (Utils.HexToBytes c.Data).isOk := by
  unfold Utils.parseAbiCall
  cases Utils.HexToBytes c.Data <;> rfl

/-- The conversion loop succeeds exactly when every call's data is
well-formed hex. -/
theorem parseAbiCalls_isOk :
    ∀ calls : List Models.Call,
      (Utils.parseAbiCalls calls).isOk =
        calls.all fun c => (Utils.HexToBytes c.Data).isOk
  | [] => rfl
  | c :: rest => by
    simp only [Utils.parseAbiCalls, List.all_cons]
    cases hc : Utils.parseAbiCall c with
    | error e =>
      have hd : (Utils.HexToBytes c.Data).isOk = false := by
        rw [← parseAbiCall_isOk, hc]
        rfl
      simp [hd, exceptIsOk_error]
    | ok ac =>
      have hd : (Utils.HexToBytes c.Data).isOk = true := by
        rw [← parseAbiCall_isOk, hc]
        rfl
      have ih := parseAbiCalls_isOk rest
      cases hr : Utils.parseAbiCalls rest with
      | error e =>
        rw [hr] at ih
        simp [hd, exceptIsOk_error, exceptIsOk_ok, ← ih]
      | ok acs =>
        rw [hr] at ih
        simp [hd, exceptIsOk_error, exceptIsOk_ok, ← ih]

/-- C5 (amended): version-1 leaf encoding succeeds exactly when
`oneSigId` and `nonce` parse and every call's `data` is well-formed hex.
A malformed `to` is decoded best-effort (never an error) and a negative
or oversized `value` is packed modulo 2^256 (never an error), contrary to
the claim. -/
theorem c5_error_conditions (leaf : Models.Leaf) :
    (Utils.encodeLeafV1 leaf).isOk =
      ((Utils.parseBigInt leaf.OneSigId).isOk &&
       (Utils.parseBigInt leaf.Nonce).isOk &&
       leaf.Calls.all fun c => (Utils.HexToBytes c.Data).isOk) := by
  unfold Utils.encodeLeafV1
  cases hi : Utils.parseBigInt leaf.OneSigId with
  | error e => simp [exceptIsOk_error]
  | ok i =>
    cases hn : Utils.parseBigInt leaf.Nonce with
    | error e => simp [exceptIsOk_error, exceptIsOk_ok]
    | ok n =>
      have hca := parseAbiCalls_isOk leaf.Calls
      cases hc : Utils.parseAbiCalls leaf.Calls with
      | error e =>
        rw [hc] at hca
        simp [exceptIsOk_error, exceptIsOk_ok, ← hca]
      | ok cs =>
        rw [hc] at hca
        simp [exceptIsOk_error, exceptIsOk_ok, ← hca]

/-! ## Claim C9 -/

/-- `getD` after `set` at a different index. -/
theorem getD_set_ne {α : Type} (l : List α) (i j : Nat) (a d : α) (hne : i ≠ j) :
    (l.set i a).getD j d = l.getD j d := by
  rw [List.getD_eq_getElem?_getD, List.getD_eq_getElem?_getD, List.getElem?_set_ne hne]

/-- `Preserves` is reflexive. -/
theorem preserves_refl (h : GoHeap.Heap) : GoHeap.Preserves h h :=
  ⟨le_refl _, le_refl _, fun _ _ => rfl, fun _ _ => rfl⟩

/-- `Preserves` composes. -/
theorem preserves_trans {h1 h2 h3 : GoHeap.Heap}
    (p12 : GoHeap.Preserves h1 h2) (p23 : GoHeap.Preserves h2 h3) :
    GoHeap.Preserves h1 h3 := by
  obtain ⟨b12, q12, hb12, hq12⟩ := p12
  obtain ⟨b23, q23, hb23, hq23⟩ := p23
  refine ⟨le_trans b12 b23, le_trans q12 q23, ?_, ?_⟩
  · intro i hi
    rw [hb23 i (lt_of_lt_of_le hi b12), hb12 i hi]
  · intro i hi
    rw [hq23 i (lt_of_lt_of_le hi q12), hq12 i hi]

/-- Allocating a byte array preserves the heap. -/
theorem allocBytes_preserves (h : GoHeap.Heap) (v : Bytes) :
    GoHeap.Preserves h (GoHeap.allocBytes h v).1 := by
  refine ⟨by simp [GoHeap.allocBytes], by simp [GoHeap.allocBytes], ?_, ?_⟩
  · intro i hi
    simp only [GoHeap.allocBytes]
    exact List.getD_append _ _ _ _ hi
  · intro i _
    rfl

/-- Allocating a slice header preserves the heap. -/
theorem allocPtr_preserves (h : GoHeap.Heap) (v : List Nat) :
    GoHeap.Preserves h (GoHeap.allocPtr h v).1 := by
  refine ⟨by simp [GoHeap.allocPtr], by simp [GoHeap.allocPtr], ?_, ?_⟩
  · intro i _
    rfl
  · intro i hi
    simp only [GoHeap.allocPtr]
    exact List.getD_append _ _ _ _ hi

/-- Writing a slice header that did not exist in the original heap
preserves the original heap. -/
theorem writePtr_preserves (h0 h : GoHeap.Heap) (id : Nat) (v : List Nat)
    (hid : h0.ptrArr.length ≤ id) (hp : GoHeap.Preserves h0 h) :
    GoHeap.Preserves h0 (GoHeap.writePtr h id v) := by
  obtain ⟨b, q, hb, hq⟩ := hp
  refine ⟨b, by simpa [GoHeap.writePtr] using q, hb, ?_⟩
  intro i hi
  simp only [GoHeap.writePtr]
  rw [getD_set_ne _ _ _ _ _ (by omega), hq i hi]

/-- The copy loop only allocates byte arrays. -/
theorem copyLeaves_preserves : ∀ (ids : List Nat) (h : GoHeap.Heap),
    GoHeap.Preserves h (GoHeap.copyLeaves h ids).1
  | [], h => preserves_refl h
  | id :: rest, h => by
    simp only [GoHeap.copyLeaves]
    exact preserves_trans (allocBytes_preserves h _) (copyLeaves_preserves rest _)

/-- The copy loop does not touch slice headers. -/
theorem copyLeaves_ptrArr : ∀ (ids : List Nat) (h : GoHeap.Heap),
    (GoHeap.copyLeaves h ids).1.ptrArr = h.ptrArr
  | [], h => rfl
  | id :: rest, h => by
    simp only [GoHeap.copyLeaves]
    rw [copyLeaves_ptrArr rest]
    rfl

/-- The heap pair loop only allocates. -/
theorem pairUpH_preserves (options : Merkle.TreeOptions) :
    ∀ (l : List Nat) (h : GoHeap.Heap), GoHeap.Preserves h (GoHeap.pairUpH options h l).1
  | [], h => preserves_refl h
  | [x], h => preserves_refl h
  | x :: y :: rest, h => by
    simp only [GoHeap.pairUpH]
    exact preserves_trans (allocBytes_preserves h _) (pairUpH_preserves options rest _)

/-- The heap tree construction only allocates. -/
theorem buildTreeH_preserves (options : Merkle.TreeOptions) :
    ∀ (n : Nat) (ids : List Nat) (h : GoHeap.Heap), ids.length ≤ n →
      GoHeap.Preserves h (GoHeap.buildTreeH h ids options).1 := by
  intro n
  induction n with
  | zero =>
    intro ids h hle
    match ids with
    | [] => rw [GoHeap.buildTreeH]; exact preserves_refl h
    | x :: r => simp at hle
  | succ n ih =>
    intro ids h hle
    match ids with
    | [] => rw [GoHeap.buildTreeH]; exact preserves_refl h
    | [x] => rw [GoHeap.buildTreeH]; exact preserves_refl h
    | x :: y :: rest =>
      rw [GoHeap.buildTreeH]
      refine preserves_trans (pairUpH_preserves options (x :: y :: rest) h) ?_
      refine ih _ _ ?_
      rw [GoHeap.pairUpH_length]
      simp at hle ⊢
      omega

/-- The heap proof helper only allocates. -/
theorem generateProofHelperH_preserves (options : Merkle.TreeOptions) :
    ∀ (n : Nat) (nodes : List Nat) (index : Nat) (h : GoHeap.Heap), nodes.length ≤ n →
      GoHeap.Preserves h (GoHeap.generateProofHelperH h nodes index options).1 := by
  intro n
  induction n with
  | zero =>
    intro nodes index h hle
    match nodes with
    | [] => rw [GoHeap.generateProofHelperH]; exact preserves_refl h
    | x :: r => simp at hle
  | succ n ih =>
    intro nodes index h hle
    match nodes with
    | [] => rw [GoHeap.generateProofHelperH]; exact preserves_refl h
    | [x] => rw [GoHeap.generateProofHelperH]; exact preserves_refl h
    | x :: y :: rest =>
      rw [GoHeap.generateProofHelperH]
      refine preserves_trans (pairUpH_preserves options (x :: y :: rest) h) ?_
      refine ih _ _ _ ?_
      rw [GoHeap.pairUpH_length]
      simp at hle ⊢
      omega

/-- C9 (confirmed): neither tree construction nor any subsequent proof
generation mutates pre-existing heap data.  Every byte array and every
slice header present before the call — in particular the caller's
`leaves` slice and all byte strings it contains — is byte-for-byte
unchanged afterwards; sorting happens only on the freshly allocated
copy. -/
theorem c9_no_mutation (h : GoHeap.Heap) (leavesPtr : Nat)
    (options : Merkle.TreeOptions) :
    GoHeap.Preserves h (GoHeap.NewMerkleTreeWithOptionsH h leavesPtr options).1 ∧
    ∀ (t : GoHeap.TreeH) (leaf : Bytes),
      GoHeap.Preserves h
        (GoHeap.GenerateProofH (GoHeap.NewMerkleTreeWithOptionsH h leavesPtr options).1
          t leaf).1 := by
  have hbuild : GoHeap.Preserves h (GoHeap.NewMerkleTreeWithOptionsH h leavesPtr options).1 := by
    simp only [GoHeap.NewMerkleTreeWithOptionsH]
    cases hm : GoHeap.readPtr h leavesPtr with
    | nil => exact preserves_refl h
    | cons a rest =>
      generalize hc : GoHeap.copyLeaves h (a :: rest) = c
      have p1 : GoHeap.Preserves h c.1 := by
        rw [← hc]
        exact copyLeaves_preserves _ h
      have hlenc : c.1.ptrArr = h.ptrArr := by
        rw [← hc]
        exact copyLeaves_ptrArr _ h
      generalize ha : GoHeap.allocPtr c.1 c.2 = ap
      have p2 : GoHeap.Preserves h ap.1 := by
        rw [← ha]
        exact preserves_trans p1 (allocPtr_preserves _ _)
      have hpc : h.ptrArr.length ≤ ap.2 := by
        rw [← ha]
        show h.ptrArr.length ≤ c.1.ptrArr.length
        rw [hlenc]
      generalize hif : (if options.SortLeaves = true
        then GoHeap.writePtr ap.1 ap.2 (GoHeap.sortIdsByContent ap.1 c.2)
        else ap.1) = h3
      have p3 : GoHeap.Preserves h h3 := by
        rw [← hif]
        by_cases hs : options.SortLeaves = true
        · simp only [if_pos hs]
          exact writePtr_preserves h ap.1 ap.2 _ hpc p2
        · simp only [if_neg hs]
          exact p2
      generalize hb : GoHeap.buildTreeH h3 (GoHeap.readPtr h3 ap.2) options = b
      have p4 : GoHeap.Preserves h b.1 := by
        rw [← hb]
        exact preserves_trans p3 (buildTreeH_preserves options _ _ _ (le_refl _))
      cases hbb : b.2 with
      | none => exact p4
      | some r => exact p4
  refine ⟨hbuild, ?_⟩
  intro t leaf
  refine preserves_trans hbuild ?_
  simp only [GoHeap.GenerateProofH]
  cases hfi : GoHeap.findLeafIndexH (GoHeap.NewMerkleTreeWithOptionsH h leavesPtr options).1
      (GoHeap.readPtr (GoHeap.NewMerkleTreeWithOptionsH h leavesPtr options).1 t.leafsPtr)
      leaf with
  | none => exact preserves_refl _
  | some i => exact generateProofHelperH_preserves t.Options _ _ i _ (le_refl _)

/-- The concrete heap of the C9 witness: two byte arrays (the leaves) and
the caller's slice header pointing at both. -/
def c9h : GoHeap.Heap := { bytesArr := [[5, 6], [7]], ptrArr := [[0, 1]] }

/-- C9 witness: after building a tree (with leaf sorting enabled) over
the caller's slice of the concrete heap, the slice header and both leaf
arrays are unchanged. -/
theorem c9_witness :
    (GoHeap.NewMerkleTreeWithOptionsH c9h 0
      { SortedPairs := true, SortLeaves := true }).1.ptrArr.getD 0 [] = [0, 1] ∧
    (GoHeap.NewMerkleTreeWithOptionsH c9h 0
      { SortedPairs := true, SortLeaves := true }).1.bytesArr.getD 0 [] = [5, 6] ∧
    (GoHeap.NewMerkleTreeWithOptionsH c9h 0
      { SortedPairs := true, SortLeaves := true }).1.bytesArr.getD 1 [] = [7] := by
  obtain ⟨⟨-, -, hb, hq⟩, -⟩ :=
    c9_no_mutation c9h 0 { SortedPairs := true, SortLeaves := true }
  exact ⟨hq 0 (by decide), hb 0 (by decide), hb 1 (by decide)⟩
